import Mathlib

/-!
Shallow embedding of the core of the Policy-Query-System repository
(file policy_server/server.py): the rule-block parser and global rule
index built by PolicySearch.build_rule_index, the keyword search of
PolicySearch.search, the lookup PolicySearch.get_rule, and the conflict
scan PolicySearch.check_conflicts.  Strings are modelled as Lean
strings, Python dictionaries as association lists that preserve
insertion order, and the regular expressions of the source are modelled
by explicit scanners that follow the behaviour of the Python re engine
on the concrete patterns used there.
-/

namespace PolicyQuery

/-! ## Python string primitives -/

/-- Whitespace characters removed by the Python str.strip() method
(ASCII subset used by the documents). -/
def isPySpace (c : Char) : Bool :=
  c = ' ' || c = '\t' || c = '\n' || c = '\r' || c = Char.ofNat 11 || c = Char.ofNat 12

/-- Python str.strip(): remove leading and trailing whitespace. -/
def pyStrip (cs : List Char) : List Char :=
  ((cs.dropWhile isPySpace).reverse.dropWhile isPySpace).reverse

/-- Python substring test: needle in hay. -/
def containsSub (hay needle : List Char) : Bool :=
  (List.range (hay.length + 1)).any fun i => needle.isPrefixOf (hay.drop i)

/-- Python str.lower() on the ASCII range. -/
def pyLower (s : String) : String := String.mk (s.data.map Char.toLower)

/-- Helper for Python str.split() with no separator: split on runs of
whitespace, dropping empty pieces. -/
def splitWSAux : List Char → List Char → List (List Char)
  | [], acc => if acc.isEmpty then [] else [acc.reverse]
  | c :: cs, acc =>
    if isPySpace c then
      if acc.isEmpty then splitWSAux cs [] else acc.reverse :: splitWSAux cs []
    else splitWSAux cs (c :: acc)

/-- Python str.split() with no separator. -/
def pySplit (s : String) : List String := (splitWSAux s.data []).map String.mk

/-! ## The metadata tag stripper

Models re.sub with the pattern of server.py line 53, which removes
bracketed metadata tags: an opening bracket, an optional slash, at
least one character among the capital letters and the hyphen, then any
characters other than a closing bracket, then a closing bracket.  -/

/-- Characters matched by the capital-letter-or-hyphen class of the tag
pattern. -/
def isTagChar (c : Char) : Bool := ('A' ≤ c && c ≤ 'Z') || c = '-'

/-- Attempt to match the tail of a tag at the head of the list (the
opening bracket has already been consumed).  On success return the
remainder of the input after the whole tag. -/
def tagMatch (cs : List Char) : Option (List Char) :=
  let t := match cs with
    | '/' :: u => u
    | _ => cs
  match t with
  | [] => none
  | d :: u =>
    if isTagChar d && u.contains ']' then
      some ((u.dropWhile (fun c => c != ']')).tail)
    else none

/-- One left-to-right pass of re.sub removing every non-overlapping tag
match.  Fuel bounds the recursion; it is instantiated with the length
of the input, which always suffices. -/
def stripTagsFuel : Nat → List Char → List Char
  | 0, cs => cs
  | _ + 1, [] => []
  | f + 1, c :: cs =>
    if c = '[' then
      match tagMatch cs with
      | some rest => stripTagsFuel f rest
      | none => c :: stripTagsFuel f cs
    else c :: stripTagsFuel f cs

/-- Remove every bracketed metadata tag, as re.sub does on line 53 of
server.py. -/
def stripTagsL (cs : List Char) : List Char := stripTagsFuel cs.length cs

/-- The cleaning step of build_rule_index lines 53 and 54: remove the
bracketed tags, then trim whitespace. -/
def stripOnce (t : String) : String := String.mk (pyStrip (stripTagsL t.data))

/-- Content stored in the index for a raw rule block: the block is
first trimmed (line 50), then the tags are removed and the result is
trimmed again (lines 53 and 54). -/
def cleanContent (raw : String) : String :=
  stripOnce (String.mk (pyStrip raw.data))

/-! ## The rule-block scanner

Models re.finditer with the pattern of server.py line 45: an opening
rule marker, a nonempty group of characters other than a closing
bracket (the rule id), a closing bracket, then a lazy group extending
to the next rule marker or to the end of the input (where the end
anchor of the Python pattern also matches just before a final
newline). -/

/-- The literal opening rule marker. -/
def ruleMarker : List Char := ['[', 'R', 'U', 'L', 'E', ':']

/-- Whether the opening rule marker starts at the head of the list. -/
def markerAt (cs : List Char) : Bool := ruleMarker.isPrefixOf cs

/-- The lazy content group: consume characters until the next rule
marker, the end of input, or a final trailing newline.  Returns the
group and the remaining input from the stopping position. -/
def group2span : List Char → List Char × List Char
  | [] => ([], [])
  | c :: cs =>
    if markerAt (c :: cs) then ([], c :: cs)
    else if c == '\n' && cs.isEmpty then ([], [c])
    else
      let p := group2span cs
      (c :: p.1, p.2)

/-- The finditer scan: at each position try to match a rule block; on
failure advance one character; on success emit the id and content
groups and continue after the match.  Fuel is instantiated with the
input length, which always suffices. -/
def parseAux : Nat → List Char → List (List Char × List Char)
  | 0, _ => []
  | _ + 1, [] => []
  | f + 1, c :: cs =>
    if markerAt (c :: cs) then
      let afterM := cs.drop 5
      let idChars := afterM.takeWhile (fun x => x != ']')
      let afterId := afterM.dropWhile (fun x => x != ']')
      if idChars.isEmpty || afterId.isEmpty then parseAux f cs
      else
        let g := group2span afterId.tail
        (idChars, g.1) :: parseAux f g.2
    else parseAux f cs

/-- All rule blocks of one document, as pairs of the id group and the
raw content group. -/
def parseDoc (s : String) : List (String × String) :=
  (parseAux s.data.length s.data).map (fun p => (String.mk p.1, String.mk p.2))

/-! ## The rule index -/

/-- One entry of RULE_INDEX (server.py lines 56 to 61). -/
structure RuleRecord where
  id : String
  content : String
  document : String
  full_block : String
deriving DecidableEq

/-- The global RULE_INDEX dictionary, modelled as an association list
in insertion order. -/
abbrev Index := List (String × RuleRecord)

/-- Python dictionary assignment: overwrite in place when the key is
present, append otherwise. -/
def dictInsert (k : String) (v : RuleRecord) : Index → Index
  | [] => [(k, v)]
  | (k', v') :: rest => if k' = k then (k, v) :: rest else (k', v') :: dictInsert k v rest

/-- Python dictionary lookup via the get method: the value stored under
the key, if present. -/
def dictGet (k : String) : Index → Option RuleRecord
  | [] => none
  | (k', v) :: rest => if k' = k then some v else dictGet k rest

/-- The full matched block, group zero of the rule pattern. -/
def ruleFullBlock (rid raw : String) : String := "[RULE:" ++ rid ++ "]" ++ raw

/-- PolicySearch.build_rule_index (lines 41 to 61): iterate the
documents in order, parse each into rule blocks, and insert each block
into the index, which is NOT cleared first: the fold starts from the
index passed in, as the source writes into the persistent global
RULE_INDEX. -/
def build_rule_index (docs : List (String × String)) (idx : Index) : Index :=
  docs.foldl
    (fun acc d =>
      (parseDoc d.2).foldl
        (fun acc2 r =>
          dictInsert r.1
            { id := r.1, content := cleanContent r.2, document := d.1,
              full_block := ruleFullBlock r.1 r.2 } acc2)
        acc)
    idx

/-- All rule ids discovered when parsing a document set. -/
def parsedIds (docs : List (String × String)) : List String :=
  (docs.map (fun d => (parseDoc d.2).map Prod.fst)).flatten

/-- PolicySearch.get_rule (lines 128 to 130): a plain dictionary get. -/
def get_rule (rid : String) (idx : Index) : Option RuleRecord := dictGet rid idx

/-! ## The search engine (PolicySearch.search, lines 63 to 126) -/

/-- One entry of the results list built on lines 116 to 122. -/
structure SearchResult where
  rule_id : String
  content : String
  full_content : String
  document : String
  score : Nat
deriving DecidableEq

/-- The keyword boost table of lines 100 to 107, in source order. -/
def keywordTable : List (String × List String) :=
  [("defense", ["defense", "dissertation defense"]),
   ("registration", ["register", "registration", "enroll"]),
   ("opt", ["opt", "optional practical training"]),
   ("prospectus", ["prospectus", "proposal"]),
   ("deadline", ["deadline", "due"]),
   ("international", ["international", "f-1", "j-1", "visa"])]

/-- The relevance score of one rule (lines 85 to 113): ten for an exact
phrase match, two per distinct shared word, and three per keyword term
found in the content for each category name found in the query. -/
def scoreRule (ql : String) (qws : List String) (content : String) : Nat :=
  let cl := pyLower content
  let s1 := if containsSub cl.data ql.data then 10 else 0
  let s2 := 2 * ((pySplit cl).dedup.filter (fun w => qws.contains w)).length
  let s3 := (keywordTable.map (fun kt =>
      if containsSub ql.data kt.1.data then
        3 * (kt.2.filter (fun term => containsSub cl.data term.data)).length
      else 0)).sum
  s1 + s2 + s3

/-- The content preview of line 118: the first three hundred characters
plus an ellipsis when truncated. -/
def preview (c : String) : String :=
  String.mk (c.data.take 300) ++ (if 300 < c.data.length then "..." else "")

/-- The department filter of lines 82 and 83: skip unless the rule id
starts with the department string; a missing or empty department means
no filtering, because an empty Python string is falsy. -/
def deptPass (dept : Option String) (rid : String) : Bool :=
  match dept with
  | none => true
  | some d => if d = "" then true else d.data.isPrefixOf rid.data

/-- The unsorted results list accumulated by the index scan (lines 80
to 122), in index encounter order, keeping only rules that pass the
department filter and score above zero. -/
def candidates (q : String) (dept : Option String) (idx : Index) : List SearchResult :=
  let ql := pyLower q
  let qws := (pySplit ql).dedup
  idx.filterMap (fun p =>
    if deptPass dept p.1 then
      let sc := scoreRule ql qws p.2.content
      if 0 < sc then
        some { rule_id := p.1, content := preview p.2.content,
               full_content := p.2.content, document := p.2.document, score := sc }
      else none
    else none)

/-- Stable insertion for the descending sort of line 125: keep walking
while the existing element scores strictly higher, so that an element
inserted from the left ends up before every equal-score element. -/
def insertScored (x : SearchResult) : List SearchResult → List SearchResult
  | [] => [x]
  | y :: ys => if y.score ≤ x.score then x :: y :: ys else y :: insertScored x ys

/-- The stable sort by descending score of line 125: list.sort with a
score key and reverse set, which keeps equal-score elements in their
original order. -/
def sortScored : List SearchResult → List SearchResult
  | [] => []
  | x :: xs => insertScored x (sortScored xs)

/-- Python slice semantics of line 126: a nonnegative bound takes a
prefix; a negative bound removes that many elements from the end,
clamped at zero. -/
def pyTake (m : Int) (l : List SearchResult) : List SearchResult :=
  if 0 ≤ m then l.take m.toNat else l.take ((l.length : Int) + m).toNat

/-- PolicySearch.search (lines 63 to 126). -/
def search (q : String) (dept : Option String) (maxResults : Int) (idx : Index) :
    List SearchResult :=
  pyTake maxResults (sortScored (candidates q dept idx))

/-! ## The conflict registry (PolicySearch.check_conflicts, lines 132 to 143) -/

/-- One rule reference inside a conflict entry. -/
structure ConflictRule where
  rule_id : String
deriving DecidableEq

/-- One registered conflict: a list of rule references plus opaque
precedence metadata carried through unchanged. -/
structure ConflictEntry where
  rules : List ConflictRule
  info : String
deriving DecidableEq

/-- PolicySearch.check_conflicts: keep every registered conflict entry
one of whose rule ids occurs, as an exact string, among the input
ids. -/
def check_conflicts (rule_ids : List String) (conflicts : List ConflictEntry) :
    List ConflictEntry :=
  conflicts.filter (fun c =>
    rule_ids.any (fun rid => (c.rules.map ConflictRule.rule_id).contains rid))

/-! ## Definitions following the words of the spec

These two definitions are NOT translated from the source: they state
the rule-id component boost described in section 4.3 step 4 of the
spec, so that its absence from the implemented scoring can be settled
as a refinement question. -/

/-- Exact split of a character list on a separator character, as the
Python str.split method with an explicit separator. -/
def splitOnCharAux (sep : Char) : List Char → List Char → List (List Char)
  | [], acc => [acc.reverse]
  | c :: cs, acc =>
    if c = sep then acc.reverse :: splitOnCharAux sep cs []
    else splitOnCharAux sep cs (c :: acc)

/-- Following the words of the spec: the topic segment of a rule id is
the text after the last colon. -/
def topicSegment (rid : String) : String :=
  String.mk ((rid.data.reverse.takeWhile (fun c => c != ':')).reverse)

/-- Following the words of the spec, section 4.3 step 4: split the
topic segment on hyphens, discard components of length at most three,
and for every remaining component and every query word longer than
three characters add twenty when one string contains the other, else
fifteen when the first four characters agree and the word has length at
least four.  Components are compared lowercased, as the example pairing
of algo with algorithm requires. -/
def specIdBoost (rid : String) (queryWords : List String) : Nat :=
  let comps := ((splitOnCharAux '-' (topicSegment rid).data []).map String.mk).filter
    (fun c => 3 < c.length)
  (comps.map (fun comp =>
    let cl := pyLower comp
    ((queryWords.filter (fun w => 3 < w.length)).map (fun w =>
      if containsSub cl.data w.data || containsSub w.data cl.data then 20
      else if cl.data.take 4 == w.data.take 4 && 4 ≤ w.length then 15
      else 0)).sum)).sum

/-! ## Dictionary lemmas -/

theorem dictGet_some_mem {k : String} {v : RuleRecord} :
    ∀ {idx : Index}, dictGet k idx = some v → (k, v) ∈ idx
  | [], h => by simp [dictGet] at h
  | (k', v') :: rest, h => by
    by_cases hk : k' = k
    · subst hk
      simp [dictGet] at h
      subst h
      exact List.mem_cons_self _ _
    · rw [dictGet, if_neg hk] at h
      exact List.mem_cons_of_mem _ (dictGet_some_mem h)

theorem dictGet_eq_some_of_mem {k : String} {v : RuleRecord} :
    ∀ {idx : Index}, (idx.map Prod.fst).Nodup → (k, v) ∈ idx → dictGet k idx = some v
  | [], _, hm => by simp at hm
  | (k', v') :: rest, hn, hm => by
    rw [List.map_cons, List.nodup_cons] at hn
    rcases List.mem_cons.mp hm with heq | hmem
    · injection heq with h1 h2
      subst h1; subst h2
      simp [dictGet]
    · have hk : k' ≠ k := by
        rintro rfl
        exact hn.1 (List.mem_map.mpr ⟨(k', v), hmem, rfl⟩)
      rw [dictGet, if_neg hk]
      exact dictGet_eq_some_of_mem hn.2 hmem

theorem dictGet_eq_none_iff {k : String} :
    ∀ {idx : Index}, dictGet k idx = none ↔ k ∉ idx.map Prod.fst
  | [] => by simp [dictGet]
  | (k', v') :: rest => by
    by_cases hk : k' = k
    · subst hk
      simp [dictGet]
    · rw [dictGet, if_neg hk]
      simp [dictGet_eq_none_iff, Ne.symm hk]

theorem dictInsert_map_fst (k : String) (v : RuleRecord) :
    ∀ (idx : Index), (dictInsert k v idx).map Prod.fst =
      if k ∈ idx.map Prod.fst then idx.map Prod.fst else idx.map Prod.fst ++ [k]
  | [] => by simp [dictInsert]
  | (k', v') :: rest => by
    by_cases hk : k' = k
    · subst hk
      simp [dictInsert]
    · rw [dictInsert, if_neg hk]
      simp only [List.map_cons]
      rw [dictInsert_map_fst k v rest]
      by_cases hmem : k ∈ rest.map Prod.fst
      · rw [if_pos hmem, if_pos (List.mem_cons_of_mem _ hmem)]
      · rw [if_neg hmem, if_neg (by simp [hmem, Ne.symm hk]), List.cons_append]

theorem dictInsert_nodup {k : String} {v : RuleRecord} {idx : Index}
    (h : (idx.map Prod.fst).Nodup) : ((dictInsert k v idx).map Prod.fst).Nodup := by
  rw [dictInsert_map_fst]
  split
  · exact h
  · rename_i hk
    simp only [List.nodup_append, List.nodup_cons, List.nodup_nil, and_true, true_and]
    exact ⟨h, by simpa using hk⟩

theorem dictGet_dictInsert_ne {k k' : String} {v : RuleRecord} (h : k' ≠ k) :
    ∀ (idx : Index), dictGet k (dictInsert k' v idx) = dictGet k idx
  | [] => by simp [dictInsert, dictGet, h]
  | (a, b) :: rest => by
    by_cases ha : a = k'
    · subst ha
      rw [dictInsert, if_pos rfl, dictGet, if_neg h, dictGet, if_neg h]
    · rw [dictInsert, if_neg ha, dictGet]
      by_cases hak : a = k
      · rw [if_pos hak, dictGet, if_pos hak]
      · rw [if_neg hak, dictGet, if_neg hak, dictGet_dictInsert_ne h rest]

/-- The inner fold of build_rule_index preserves nodup keys. -/
theorem foldl_dictInsert_nodup (f : String × String → RuleRecord) :
    ∀ (rs : List (String × String)) (acc : Index), (acc.map Prod.fst).Nodup →
      ((rs.foldl (fun acc2 r => dictInsert r.1 (f r) acc2) acc).map Prod.fst).Nodup
  | [], _, h => h
  | _ :: rs, _, h =>
    foldl_dictInsert_nodup f rs _ (dictInsert_nodup h)

/-- build_rule_index preserves nodup keys. -/
theorem build_rule_index_nodup :
    ∀ (docs : List (String × String)) (idx : Index), (idx.map Prod.fst).Nodup →
      ((build_rule_index docs idx).map Prod.fst).Nodup
  | [], _, h => h
  | d :: docs, idx, h =>
    build_rule_index_nodup docs _ (foldl_dictInsert_nodup _ (parseDoc d.2) idx h)

/-- The inner fold of build_rule_index does not touch keys it does not
insert. -/
theorem foldl_dictInsert_get_ne (f : String × String → RuleRecord) (k : String) :
    ∀ (rs : List (String × String)) (acc : Index), k ∉ rs.map Prod.fst →
      dictGet k (rs.foldl (fun acc2 r => dictInsert r.1 (f r) acc2) acc) = dictGet k acc
  | [], _, _ => rfl
  | r :: rs, acc, h => by
    rw [List.foldl_cons, foldl_dictInsert_get_ne f k rs _ (fun hm => h (by simp [hm])),
      dictGet_dictInsert_ne (by rintro rfl; exact h (by simp))]

theorem parsedIds_cons (d : String × String) (docs : List (String × String)) :
    parsedIds (d :: docs) = (parseDoc d.2).map Prod.fst ++ parsedIds docs := by
  simp [parsedIds]

/-- build_rule_index does not touch keys outside the parsed ids. -/
theorem build_rule_index_get_ne (k : String) :
    ∀ (docs : List (String × String)) (idx : Index), k ∉ parsedIds docs →
      dictGet k (build_rule_index docs idx) = dictGet k idx
  | [], _, _ => rfl
  | d :: docs, idx, h => by
    have h1 : k ∉ (parseDoc d.2).map Prod.fst := fun hm =>
      h (parsedIds_cons d docs ▸ List.mem_append_left _ hm)
    have h2 : k ∉ parsedIds docs := fun hm =>
      h (parsedIds_cons d docs ▸ List.mem_append_right _ hm)
    rw [build_rule_index, List.foldl_cons]
    rw [show (docs.foldl _ _ : Index) = build_rule_index docs _ from rfl]
    rw [build_rule_index_get_ne k docs _ h2, foldl_dictInsert_get_ne _ k _ _ h1]

/-! ## Claim C1 -/

/-- C1 (amended): get_rule performs only an exact, case-sensitive key
lookup in the rule index: on an index built from a document set it
returns a record exactly when that record is literally stored under the
id as given, and it returns the none sentinel, never raising, exactly
when the id as given is absent from the index keys.  No RULE: prefix
handling and no case-insensitive scan exist. -/
theorem get_rule_exact_lookup (docs : List (String × String)) (rid : String) (r : RuleRecord) :
    (get_rule rid (build_rule_index docs []) = some r ↔ (rid, r) ∈ build_rule_index docs []) ∧
    (get_rule rid (build_rule_index docs []) = none ↔
      rid ∉ (build_rule_index docs []).map Prod.fst) := by
  constructor
  · constructor
    · exact dictGet_some_mem
    · exact dictGet_eq_some_of_mem (build_rule_index_nodup docs [] (by simp))
  · exact dictGet_eq_none_iff

/-- C1 counterexample: on an index holding the key GSAS:X-1, the exact
id is found but the lowercased id is not, so the case-insensitive and
prefix-tolerant fallbacks claimed for get_rule do not exist. -/
theorem get_rule_case_sensitive_cex :
    get_rule "GSAS:X-1" (build_rule_index [("GSAS", "[RULE:GSAS:X-1]text")] []) =
      some { id := "GSAS:X-1", content := "text", document := "GSAS",
             full_block := "[RULE:GSAS:X-1]text" } ∧
    get_rule "gsas:x-1" (build_rule_index [("GSAS", "[RULE:GSAS:X-1]text")] []) = none ∧
    get_rule "RULE:GSAS:X-1" (build_rule_index [("GSAS", "[RULE:GSAS:X-1]text")] []) = none := by
  decide

/-! ## Claim C2 -/

/-- C2 (amended): check_conflicts keeps, in registry order, exactly the
registered conflict entries one of whose rule ids equals, as an exact
case-sensitive string, one of the input ids. -/
theorem check_conflicts_exact_membership (ids : List String) (reg : List ConflictEntry)
    (c : ConflictEntry) :
    c ∈ check_conflicts ids reg ↔
      c ∈ reg ∧ ids.any (fun rid => (c.rules.map ConflictRule.rule_id).contains rid) = true := by
  simp [check_conflicts, List.mem_filter]

/-- C2 counterexample: a registered conflict on GSAS:X-1 is found for
the input id in its original case but not for the lowercased input, so
the intersection is not case-insensitive and the result is not
invariant under case permutation of the inputs. -/
theorem check_conflicts_case_sensitive_cex :
    check_conflicts ["gsas:x-1"]
      [{ rules := [{ rule_id := "GSAS:X-1" }, { rule_id := "ISSO:Y-2" }], info := "meta" }] = [] ∧
    check_conflicts ["GSAS:X-1"]
      [{ rules := [{ rule_id := "GSAS:X-1" }, { rule_id := "ISSO:Y-2" }], info := "meta" }] =
      [{ rules := [{ rule_id := "GSAS:X-1" }, { rule_id := "ISSO:Y-2" }], info := "meta" }] := by
  decide

/-! ## Sorting lemmas -/

theorem mem_insertScored {z x : SearchResult} :
    ∀ {l : List SearchResult}, z ∈ insertScored x l ↔ z = x ∨ z ∈ l
  | [] => by simp [insertScored]
  | y :: ys => by
    rw [insertScored]
    split
    · exact List.mem_cons
    · rw [List.mem_cons, mem_insertScored, List.mem_cons]
      tauto

theorem insertScored_pairwise {x : SearchResult} :
    ∀ {l : List SearchResult}, l.Pairwise (fun a b => b.score ≤ a.score) →
      (insertScored x l).Pairwise (fun a b => b.score ≤ a.score)
  | [], _ => by simp [insertScored]
  | y :: ys, h => by
    rw [List.pairwise_cons] at h
    rw [insertScored]
    split
    · rename_i hle
      refine List.pairwise_cons.mpr ⟨fun z hz => ?_, List.pairwise_cons.mpr h⟩
      rcases List.mem_cons.mp hz with rfl | hzys
      · exact hle
      · exact le_trans (h.1 z hzys) hle
    · rename_i hgt
      rw [not_le] at hgt
      refine List.pairwise_cons.mpr ⟨fun z hz => ?_, insertScored_pairwise h.2⟩
      rcases mem_insertScored.mp hz with rfl | hzys
      · exact le_of_lt hgt
      · exact h.1 z hzys

theorem sortScored_pairwise :
    ∀ (l : List SearchResult), (sortScored l).Pairwise (fun a b => b.score ≤ a.score)
  | [] => List.Pairwise.nil
  | _ :: xs => insertScored_pairwise (sortScored_pairwise xs)

theorem mem_sortScored {z : SearchResult} :
    ∀ {l : List SearchResult}, z ∈ sortScored l ↔ z ∈ l
  | [] => Iff.rfl
  | x :: xs => by
    rw [sortScored, mem_insertScored, mem_sortScored, List.mem_cons]

/-- Inserting from the left places an element before every equal-score
element already present, so filtering any fixed score class commutes
with insertion. -/
theorem filter_insertScored (s : Nat) (x : SearchResult) :
    ∀ (l : List SearchResult),
      (insertScored x l).filter (fun r => r.score == s) =
        if x.score == s then x :: l.filter (fun r => r.score == s)
        else l.filter (fun r => r.score == s)
  | [] => by
    by_cases hx : x.score = s <;> simp [insertScored, List.filter_cons, hx]
  | y :: ys => by
    rw [insertScored]
    split
    · rename_i hle
      by_cases hx : x.score = s <;> simp [List.filter_cons, hx]
    · rename_i hgt
      rw [not_le] at hgt
      rw [List.filter_cons, List.filter_cons, filter_insertScored s x ys]
      by_cases hx : x.score = s
      · have hy : ¬ y.score = s := by omega
        simp [hx, hy]
      · simp [hx]

/-- The stable sort leaves every equal-score class in its original
relative order. -/
theorem filter_sortScored (s : Nat) :
    ∀ (l : List SearchResult),
      (sortScored l).filter (fun r => r.score == s) = l.filter (fun r => r.score == s)
  | [] => rfl
  | x :: xs => by
    rw [sortScored, filter_insertScored, filter_sortScored s xs, List.filter_cons]

theorem pyTake_sublist (m : Int) (l : List SearchResult) : (pyTake m l).Sublist l := by
  rw [pyTake]
  split <;> exact List.take_sublist _ _

theorem candidates_score_pos {r : SearchResult} {q : String} {dept : Option String}
    {idx : Index} (h : r ∈ candidates q dept idx) : 0 < r.score := by
  simp only [candidates, List.mem_filterMap] at h
  obtain ⟨p, _, he⟩ := h
  split at he
  · split at he
    · rename_i hpos
      cases he
      exact hpos
    · exact absurd he (by simp)
  · exact absurd he (by simp)

/-! ## Claim C7 -/

/-- C7: search results are in non-increasing score order; the sort is
stable, in that every equal-score class of the sorted candidate list is
the same, in the same order, as in the unsorted list accumulated in
index encounter order; and search is exactly this stable sort followed
by the slice truncation. -/
theorem search_sorted_stable (q : String) (dept : Option String) (m : Int) (idx : Index) :
    (search q dept m idx).Pairwise (fun a b => b.score ≤ a.score) ∧
    (∀ s : Nat, (sortScored (candidates q dept idx)).filter (fun r => r.score == s) =
      (candidates q dept idx).filter (fun r => r.score == s)) ∧
    search q dept m idx = pyTake m (sortScored (candidates q dept idx)) := by
  refine ⟨?_, fun s => filter_sortScored s _, rfl⟩
  exact List.Pairwise.sublist (pyTake_sublist m _) (sortScored_pairwise _)

/-! ## Claim C6 -/

/-- A shared concrete index with two rules that both match the query
hello with equal positive scores. -/
def idxTwoHello : Index :=
  build_rule_index [("D", "[RULE:A:AAAA-1]hello world[RULE:B:BBBB-1]hello world")] []

/-- C6 (amended): for every nonnegative maxResults the search returns
at most maxResults entries, and for every maxResults whatsoever every
returned entry has score strictly greater than zero.  The entry bound
fails for negative maxResults, where Python slice semantics apply. -/
theorem search_limit_and_positive_scores (q : String) (dept : Option String) (m : Int)
    (idx : Index) :
    (0 ≤ m → (search q dept m idx).length ≤ m.toNat) ∧
    (search q dept m idx).all (fun r => decide (0 < r.score)) = true := by
  constructor
  · intro hm
    rw [search, pyTake, if_pos hm]
    exact le_trans (le_of_eq (List.length_take _ _)) (min_le_left _ _)
  · rw [List.all_eq_true]
    intro r hr
    have h1 : r ∈ sortScored (candidates q dept idx) := (pyTake_sublist m _).subset hr
    exact decide_eq_true (candidates_score_pos (mem_sortScored.mp h1))

/-- Witness for C6 at a concrete query, index and limit. -/
theorem search_limit_and_positive_scores_w :
    (search "hello" none 2 idxTwoHello).length ≤ (2 : Int).toNat ∧
    (search "hello" none 2 idxTwoHello).all (fun r => decide (0 < r.score)) = true :=
  ⟨(search_limit_and_positive_scores "hello" none 2 idxTwoHello).1 (by decide),
   (search_limit_and_positive_scores "hello" none 2 idxTwoHello).2⟩

/-- C6 counterexample: with maxResults equal to minus one and two
matching rules, search returns one entry, and one is not at most minus
one, so the entry bound fails for a negative maxResults argument. -/
theorem negative_max_results_cex :
    (search "hello" none (-1) idxTwoHello).length = 1 ∧ ¬ ((1 : Int) ≤ -1) := by
  decide

/-! ## Claim C10 -/

/-- C10: the truncation follows Python slice semantics: a limit of zero
yields the empty result, and a negative limit of minus k yields the
sorted positive-score list with its last k entries removed. -/
theorem slice_semantics_of_max_results (q : String) (dept : Option String) (idx : Index)
    (k : Nat) :
    search q dept 0 idx = [] ∧
    (0 < k → search q dept (-(k : Int)) idx =
      (sortScored (candidates q dept idx)).take
        ((sortScored (candidates q dept idx)).length - k)) := by
  constructor
  · simp [search, pyTake]
  · intro hk
    rw [search, pyTake, if_neg (by omega)]
    congr 1
    omega

/-- Witness for C10 at a concrete query, index and negative limit. -/
theorem slice_semantics_of_max_results_w :
    search "hello" none 0 idxTwoHello = [] ∧
    search "hello" none (-2) idxTwoHello =
      (sortScored (candidates "hello" none idxTwoHello)).take
        ((sortScored (candidates "hello" none idxTwoHello)).length - 2) :=
  ⟨(slice_semantics_of_max_results "hello" none idxTwoHello 2).1,
   (slice_semantics_of_max_results "hello" none idxTwoHello 2).2 (by decide)⟩

/-! ## Claim C3 -/

theorem insertScored_map_rename (g : String → String) (x : SearchResult) :
    ∀ (l : List SearchResult),
      insertScored { x with rule_id := g x.rule_id }
          (l.map (fun r => { r with rule_id := g r.rule_id })) =
        (insertScored x l).map (fun r => { r with rule_id := g r.rule_id })
  | [] => rfl
  | y :: ys => by
    rw [List.map_cons, insertScored, insertScored]
    by_cases h : y.score ≤ x.score
    · rw [if_pos h, if_pos h, List.map_cons, List.map_cons]
    · rw [if_neg h, if_neg h, List.map_cons, insertScored_map_rename g x ys]

theorem sortScored_map_rename (g : String → String) :
    ∀ (l : List SearchResult),
      sortScored (l.map (fun r => { r with rule_id := g r.rule_id })) =
        (sortScored l).map (fun r => { r with rule_id := g r.rule_id })
  | [] => rfl
  | x :: xs => by
    rw [List.map_cons, sortScored, sortScored, sortScored_map_rename g xs,
      insertScored_map_rename g x]

theorem pyTake_map_rename (g : String → String) (m : Int) (l : List SearchResult) :
    pyTake m (l.map (fun r => { r with rule_id := g r.rule_id })) =
      (pyTake m l).map (fun r => { r with rule_id := g r.rule_id }) := by
  rw [pyTake, pyTake, List.length_map]
  split <;> rw [List.map_take]

/-- Renaming every id of the index renames the rule ids of the
candidate records and changes nothing else. -/
theorem candidates_map_rename (q : String) (g : String → String) (idx : Index) :
    candidates q none (idx.map (fun p => (g p.1, p.2))) =
      (candidates q none idx).map (fun r => { r with rule_id := g r.rule_id }) := by
  simp only [candidates, List.filterMap_map, List.map_filterMap]
  congr 1
  funext p
  simp only [Function.comp, deptPass, if_true]
  split
  · rfl
  · rfl

/-- C3 (amended): the search score has no rule-id component: the score
consists only of the phrase, shared-word and keyword parts computed
from the rule content, so renaming every rule id in the index (with no
department filter) leaves the sequence of result scores unchanged. -/
theorem search_score_ignores_rule_id (q : String) (m : Int) (g : String → String)
    (idx : Index) :
    (search q none m (idx.map (fun p => (g p.1, p.2)))).map SearchResult.score =
      (search q none m idx).map SearchResult.score := by
  rw [search, search, candidates_map_rename, sortScored_map_rename, pyTake_map_rename,
    List.map_map]
  rfl

/-- C3 counterexample: for the query algorithm and a rule with id
PHD_SEAS:ALGO-001 whose content shares nothing with the query, the
boost described by the spec would contribute twenty, yet the search
returns nothing, so the implemented score contains no such component. -/
theorem rule_id_boost_absent_cex :
    specIdBoost "PHD_SEAS:ALGO-001" ((pySplit (pyLower "algorithm")).dedup) = 20 ∧
    search "algorithm" none 5 (build_rule_index [("D", "[RULE:PHD_SEAS:ALGO-001]xyz")] []) =
      [] := by
  decide

/-! ## Claim C4 -/

/-- Filtering a filterMap by a predicate that agrees with a guard on
the produced elements is the same as guarding the element function. -/
theorem filterMap_guard {α β : Type} (c : α → Bool) (f : α → Option β) (P : β → Bool)
    (hPf : ∀ a b, f a = some b → P b = c a) :
    ∀ l : List α,
      l.filterMap (fun a => if c a then f a else none) = (l.filterMap f).filter P
  | [] => rfl
  | a :: l => by
    rw [List.filterMap_cons, List.filterMap_cons]
    cases hfa : f a with
    | none => simp [filterMap_guard c f P hPf l]
    | some b =>
      have hpb := hPf a b hfa
      cases hca : c a with
      | true => simp [List.filter_cons, hpb, hca, filterMap_guard c f P hPf l]
      | false => simp [List.filter_cons, hpb, hca, filterMap_guard c f P hPf l]

/-- With a nonempty department the candidate scan is the unfiltered
scan restricted to rule ids that literally start with the department
string. -/
theorem candidates_some_dept (q d : String) (idx : Index) (hd : d ≠ "") :
    candidates q (some d) idx =
      (candidates q none idx).filter (fun r => d.data.isPrefixOf r.rule_id.data) := by
  have h := filterMap_guard (fun p : String × RuleRecord => deptPass (some d) p.1)
    (fun p : String × RuleRecord =>
      if 0 < scoreRule (pyLower q) ((pySplit (pyLower q)).dedup) p.2.content then
        some ({ rule_id := p.1, content := preview p.2.content,
                full_content := p.2.content, document := p.2.document,
                score := scoreRule (pyLower q) ((pySplit (pyLower q)).dedup) p.2.content } :
          SearchResult)
      else none)
    (fun r : SearchResult => d.data.isPrefixOf r.rule_id.data)
    (by
      intro p b hfb
      dsimp only at hfb ⊢
      split at hfb
      · cases hfb
        simp only [deptPass]
        rw [if_neg hd]
      · exact absurd hfb (by simp))
    idx
  exact h

/-- C4 (amended): a nonempty department argument filters candidates by
a case-sensitive literal prefix test on the rule id, not a
case-insensitive one. -/
theorem dept_filter_case_sensitive (q d : String) (m : Int) (idx : Index) (hd : d ≠ "") :
    search q (some d) m idx =
      pyTake m (sortScored ((candidates q none idx).filter
        (fun r => d.data.isPrefixOf r.rule_id.data))) := by
  rw [search, candidates_some_dept q d idx hd]

/-- Witness for C4 at a concrete department and index. -/
theorem dept_filter_case_sensitive_w :
    search "hello" (some "A:") 5 idxTwoHello =
      pyTake 5 (sortScored ((candidates "hello" none idxTwoHello).filter
        (fun r => "A:".data.isPrefixOf r.rule_id.data))) :=
  dept_filter_case_sensitive "hello" "A:" 5 idxTwoHello (by decide)

/-- C4 counterexample: the department PhD_Seas, a case-insensitive
match for the id PHD_SEAS:ALGO-001, yields no results, while the
exact-case department PHD_SEAS yields the rule, so the filter is not
case-insensitive. -/
theorem dept_mixed_case_no_match_cex :
    search "algorithm" (some "PhD_Seas") 5
      (build_rule_index [("PHD_SEAS", "[RULE:PHD_SEAS:ALGO-001]algorithm")] []) = [] ∧
    (search "algorithm" (some "PHD_SEAS") 5
      (build_rule_index [("PHD_SEAS", "[RULE:PHD_SEAS:ALGO-001]algorithm")] [])).map
        SearchResult.rule_id = ["PHD_SEAS:ALGO-001"] := by
  decide

/-! ## Claim C8 -/

/-- C8 (amended): every id in the index maps to exactly one record (an
index built from the empty global has nodup keys), but rebuilding is
NOT an atomic replacement: build_rule_index inserts into the index it
is given without clearing it, so every key outside the newly parsed ids
keeps its old record after a rebuild. -/
theorem index_unique_keys_rebuild_not_replacing (docs : List (String × String))
    (idx : Index) (k : String) :
    ((build_rule_index docs []).map Prod.fst).Nodup ∧
    (k ∉ parsedIds docs → dictGet k (build_rule_index docs idx) = dictGet k idx) :=
  ⟨build_rule_index_nodup docs [] (by simp), build_rule_index_get_ne k docs idx⟩

/-- Witness for C8 at a concrete rebuild. -/
theorem index_unique_keys_rebuild_not_replacing_w :
    ((build_rule_index [("D2", "[RULE:B]beta")] []).map Prod.fst).Nodup ∧
    dictGet "A" (build_rule_index [("D2", "[RULE:B]beta")]
        (build_rule_index [("D1", "[RULE:A]alpha")] [])) =
      dictGet "A" (build_rule_index [("D1", "[RULE:A]alpha")] []) :=
  ⟨(index_unique_keys_rebuild_not_replacing [("D2", "[RULE:B]beta")] [] "A").1,
   (index_unique_keys_rebuild_not_replacing [("D2", "[RULE:B]beta")]
      (build_rule_index [("D1", "[RULE:A]alpha")] []) "A").2 (by decide)⟩

/-- C8 counterexample: after re-parsing with a new document set, a
reader still observes the record left over from the earlier build,
which the new parse did not produce, so the rebuild is not an atomic
replacement. -/
theorem rebuild_leftover_cex :
    get_rule "A" (build_rule_index [("D2", "[RULE:B]beta")]
        (build_rule_index [("D1", "[RULE:A]alpha")] [])) =
      some { id := "A", content := "alpha", document := "D1",
             full_block := "[RULE:A]alpha" } ∧
    get_rule "A" (build_rule_index [("D2", "[RULE:B]beta")] []) = none := by
  decide

/-! ## Claim C9 -/

theorem stripTagsFuel_no_bracket :
    ∀ (f : Nat) (cs : List Char), (∀ c ∈ cs, c ≠ '[') → cs.length ≤ f →
      stripTagsFuel f cs = cs
  | 0, cs, _, hl => by
    rw [List.eq_nil_of_length_eq_zero (Nat.le_zero.mp hl)]
    rfl
  | _ + 1, [], _, _ => rfl
  | f + 1, c :: cs, h, hl => by
    simp only [stripTagsFuel]
    rw [if_neg (h c (List.mem_cons_self c cs)),
      stripTagsFuel_no_bracket f cs (fun x hx => h x (List.mem_cons_of_mem c hx))
        (Nat.le_of_succ_le_succ hl)]

theorem stripTagsL_no_bracket {cs : List Char} (h : ∀ c ∈ cs, c ≠ '[') :
    stripTagsL cs = cs :=
  stripTagsFuel_no_bracket _ cs h le_rfl

theorem dropWhile_head?_not (p : Char → Bool) :
    ∀ (l : List Char) (c : Char), (l.dropWhile p).head? = some c → p c = false
  | [], c, h => by simp at h
  | a :: t, c, h => by
    rw [List.dropWhile_cons] at h
    split at h
    · exact dropWhile_head?_not p t c h
    · rename_i hpa
      injection h with h1
      rw [Bool.not_eq_true] at hpa
      rw [← h1]
      exact hpa

theorem dropWhile_eq_self_of_head (p : Char → Bool) (l : List Char)
    (h : ∀ c, l.head? = some c → p c = false) : l.dropWhile p = l := by
  cases l with
  | nil => rfl
  | cons a t => rw [List.dropWhile_cons, if_neg (by simp [h a rfl])]

theorem pyStrip_eq_self {xs : List Char}
    (h1 : ∀ c, xs.head? = some c → isPySpace c = false)
    (h2 : ∀ c, xs.getLast? = some c → isPySpace c = false) : pyStrip xs = xs := by
  rw [pyStrip, dropWhile_eq_self_of_head _ _ h1, dropWhile_eq_self_of_head,
    List.reverse_reverse]
  intro c hc
  rw [List.head?_reverse] at hc
  exact h2 c hc

theorem pyStrip_idem (x : List Char) : pyStrip (pyStrip x) = pyStrip x := by
  apply pyStrip_eq_self
  · intro c hc
    rw [pyStrip, List.head?_reverse] at hc
    rcases List.dropWhile_suffix isPySpace
      (l := (List.dropWhile isPySpace x).reverse) with ⟨pre, hpre⟩
    have hne : List.dropWhile isPySpace (List.dropWhile isPySpace x).reverse ≠ [] := by
      intro he
      rw [he] at hc
      simp at hc
    have h3 : ((List.dropWhile isPySpace x).reverse).getLast? = some c := by
      rw [← hpre, List.getLast?_append_of_ne_nil pre hne, hc]
    rw [List.getLast?_reverse] at h3
    exact dropWhile_head?_not isPySpace x c h3
  · intro c hc
    rw [pyStrip, List.getLast?_reverse] at hc
    exact dropWhile_head?_not isPySpace _ c hc

/-- C9 (amended): the tag-stripping and trimming step is idempotent on
every rule-block text whose once-stripped form contains no opening
bracket; in general removing a tag can juxtapose characters into a new
tag match, so a second pass can strip further. -/
theorem strip_tags_idempotent_no_bracket (t : String)
    (h : ∀ c ∈ (stripOnce t).data, c ≠ '[') :
    stripOnce (stripOnce t) = stripOnce t := by
  have h' : ∀ c ∈ pyStrip (stripTagsL t.data), c ≠ '[' := h
  show String.mk (pyStrip (stripTagsL (pyStrip (stripTagsL t.data)))) =
    String.mk (pyStrip (stripTagsL t.data))
  rw [stripTagsL_no_bracket h', pyStrip_idem]

/-- Witness for C9 at a concrete tagged rule text. -/
theorem strip_tags_idempotent_no_bracket_w :
    stripOnce (stripOnce "hello [TIMING:30 days] world") =
      stripOnce "hello [TIMING:30 days] world" :=
  strip_tags_idempotent_no_bracket "hello [TIMING:30 days] world" (by decide)

/-- C9 counterexample: on the rule-block text of two nested brackets
around a tag, one strip leaves a bracketed capital which the second
strip removes, so stripping twice differs from stripping once. -/
theorem strip_tags_not_idempotent_cex :
    stripOnce "[[A]B]" = "[B]" ∧ stripOnce (stripOnce "[[A]B]") = "" := by
  decide

/-! ## Claim C5 -/

theorem markerAt_false_of_ne {c : Char} (h : c ≠ '[') (l : List Char) :
    markerAt (c :: l) = false := by
  have hb : ('[' == c) = false := by
    rw [beq_eq_false_iff_ne]
    exact fun he => h he.symm
  show (('[' == c) && (List.isPrefixOf ['R', 'U', 'L', 'E', ':'] l)) = false
  rw [hb, Bool.false_and]

theorem markerAt_cons_marker (z : List Char) :
    markerAt ('[' :: 'R' :: 'U' :: 'L' :: 'E' :: ':' :: z) = true := by
  simp [markerAt, ruleMarker, List.isPrefixOf]

/-- The lazy content group passes unchanged over marker-free text that
is followed by more input. -/
theorem group2span_append (xs : List Char) (cs : List Char)
    (hx : ∀ c ∈ xs, c ≠ '[') (hc : cs ≠ []) :
    group2span (xs ++ cs) = (xs ++ (group2span cs).1, (group2span cs).2) := by
  induction xs with
  | nil => simp
  | cons a xs ih =>
    have ha : a ≠ '[' := hx a (List.mem_cons_self a xs)
    have hm : markerAt (a :: (xs ++ cs)) = false := markerAt_false_of_ne ha _
    have hemp : (xs ++ cs).isEmpty = false := by
      cases hxs : xs ++ cs with
      | nil => exact absurd (List.append_eq_nil.mp hxs).2 hc
      | cons _ _ => rfl
    rw [List.cons_append]
    show (if markerAt (a :: (xs ++ cs)) = true then ([], a :: (xs ++ cs))
      else if (a == '\n' && (xs ++ cs).isEmpty) = true then ([], [a])
      else ((a :: (group2span (xs ++ cs)).1, (group2span (xs ++ cs)).2))) = _
    rw [hm, hemp, Bool.and_false]
    simp only [Bool.false_eq_true, if_false]
    rw [ih (fun c hcm => hx c (List.mem_cons_of_mem a hcm))]
    rfl

/-- The lazy content group walks straight through a closing rule tag:
the closing tag is not a stopping position of the scan. -/
theorem group2span_close_tag (t : List Char) :
    group2span ("[/RULE]".data ++ t) =
      ("[/RULE]".data ++ (group2span t).1, (group2span t).2) := by
  simp [group2span, markerAt, ruleMarker, List.isPrefixOf]

/-- The lazy content group stops at an opening rule marker. -/
theorem group2span_marker (z : List Char) :
    group2span (ruleMarker ++ z) = ([], ruleMarker ++ z) := by
  simp [group2span, markerAt, ruleMarker, List.isPrefixOf]

theorem takeWhile_dropWhile_append (p : Char → Bool) (xs : List Char) (y : Char)
    (ys : List Char) (hx : ∀ c ∈ xs, p c = true) (hy : p y = false) :
    (xs ++ y :: ys).takeWhile p = xs ∧ (xs ++ y :: ys).dropWhile p = y :: ys := by
  induction xs with
  | nil => simp [List.takeWhile_cons, List.dropWhile_cons, hy]
  | cons a xs ih =>
    have ha : p a = true := hx a (List.mem_cons_self a xs)
    have ih' := ih (fun c hc => hx c (List.mem_cons_of_mem a hc))
    simp [List.takeWhile_cons, List.dropWhile_cons, ha, ih'.1, ih'.2]

/-- One successful match step of the finditer scan: at an opening
marker with a wellformed id, the scan emits the id and the lazy group
and continues from the stopping position of the group. -/
theorem parseAux_match (f : Nat) (idc rest : List Char)
    (hne : idc ≠ []) (hnb : ∀ c ∈ idc, c ≠ ']') :
    parseAux (f + 1) ((ruleMarker ++ idc) ++ ']' :: rest) =
      (idc, (group2span rest).1) :: parseAux f (group2span rest).2 := by
  have htk := takeWhile_dropWhile_append (fun x => x != ']') idc ']' rest
    (fun c hc => by simpa using hnb c hc) (by simp)
  have hemp : idc.isEmpty = false := by
    cases idc with
    | nil => exact absurd rfl hne
    | cons _ _ => rfl
  show parseAux (f + 1) ('[' :: ('R' :: 'U' :: 'L' :: 'E' :: ':' :: (idc ++ ']' :: rest))) = _
  simp only [parseAux, markerAt_cons_marker, if_true, List.drop_succ_cons, List.drop_zero,
    htk.1, htk.2, hemp, List.isEmpty_cons, Bool.or_false, Bool.false_eq_true, if_false,
    List.tail_cons]

/-- C5 (amended): a rule block never ends at a closing rule tag: it
extends to the next opening rule marker (or end of input), so the text
between the closing tag and the next opening marker remains part of the
raw block content of the rule (the closing tag itself is removed only
later, by metadata tag stripping). -/
theorem rule_block_next_marker_boundary (body trailing rest : List Char)
    (hb : ∀ c ∈ body, c ≠ '[') (ht : ∀ c ∈ trailing, c ≠ '[') :
    (parseDoc (String.mk ((ruleMarker ++ ['A']) ++ ']' ::
        (body ++ ("[/RULE]".data ++ (trailing ++ (ruleMarker ++ 'B' :: ']' :: rest))))))).head? =
      some ("A", String.mk (body ++ ("[/RULE]".data ++ trailing))) := by
  have hg : group2span
      (body ++ ("[/RULE]".data ++ (trailing ++ (ruleMarker ++ 'B' :: ']' :: rest)))) =
      (body ++ ("[/RULE]".data ++ (trailing ++ [])),
        ruleMarker ++ 'B' :: ']' :: rest) := by
    rw [group2span_append body _ hb (fun h =>
      absurd (List.append_eq_nil.mp h).1 (by decide))]
    rw [group2span_close_tag]
    rw [group2span_append trailing _ ht (fun h =>
      absurd (List.append_eq_nil.mp h).1 (by decide))]
    rw [group2span_marker]
  have hpos : 0 < (String.mk ((ruleMarker ++ ['A']) ++ ']' ::
      (body ++ ("[/RULE]".data ++ (trailing ++
        (ruleMarker ++ 'B' :: ']' :: rest)))))).data.length := by
    show 0 < ((ruleMarker ++ ['A']) ++ ']' ::
      (body ++ ("[/RULE]".data ++ (trailing ++
        (ruleMarker ++ 'B' :: ']' :: rest))))).length
    simp [ruleMarker]
  obtain ⟨f, hf⟩ := Nat.exists_eq_succ_of_ne_zero (Nat.pos_iff_ne_zero.mp hpos)
  show ((parseAux (String.mk ((ruleMarker ++ ['A']) ++ ']' ::
      (body ++ ("[/RULE]".data ++ (trailing ++
        (ruleMarker ++ 'B' :: ']' :: rest)))))).data.length
      ((ruleMarker ++ ['A']) ++ ']' ::
        (body ++ ("[/RULE]".data ++ (trailing ++
          (ruleMarker ++ 'B' :: ']' :: rest)))))).map
      (fun p => (String.mk p.1, String.mk p.2))).head? = _
  rw [hf, parseAux_match f ['A'] _ (by decide) (by decide), hg]
  simp only [List.map_cons, List.head?_cons, List.append_nil]

/-- Witness for C5 at concrete marker-free body and trailing text. -/
theorem rule_block_next_marker_boundary_w :
    (parseDoc (String.mk ((ruleMarker ++ ['A']) ++ ']' ::
        (['x'] ++ ("[/RULE]".data ++ (['t'] ++ (ruleMarker ++ 'B' :: ']' :: []))))))).head? =
      some ("A", String.mk (['x'] ++ ("[/RULE]".data ++ ['t']))) :=
  rule_block_next_marker_boundary ['x'] ['t'] [] (by decide) (by decide)

/-- C5 counterexample: with a closing tag before the next opening
marker, the indexed content of the rule still contains the text between
the closing tag and the next marker, rather than ending at the closing
tag. -/
theorem closing_marker_ignored_cex :
    get_rule "A" (build_rule_index [("D", "[RULE:A]body[/RULE] trailing [RULE:B]b2")] []) =
      some { id := "A", content := "body trailing", document := "D",
             full_block := "[RULE:A]body[/RULE] trailing " } ∧
    ("body trailing" : String) ≠ "body" := by
  decide

end PolicyQuery
